import Mathlib

/-!
Shallow embedding of `dulwich/walk.py` (commit-graph walker) and proofs of
the specification's claims about it.

Commit identifiers (SHAs) are modelled as natural numbers, the object store
as a partial function from identifiers to commits, paths as lists of
characters, and commit timestamps as integers.  The external diff engine
(`dulwich.diff_tree`, not part of this source tree) is kept abstract as a
configuration field; the parts of the walker that are in the source are
translated directly.  Exceptions (`MissingCommitError`, `KeyError`) are
modelled with `Except`.
-/

set_option maxHeartbeats 1000000

namespace DulwichWalk

abbrev Sha := Nat

abbrev Path := List Char

/-- A commit object: identifier, ordered parent identifiers, tree
identifier, and integer commit timestamp (`commit_time`). -/
structure Commit where
  id : Sha
  parents : List Sha
  tree : Nat
  commit_time : Int
deriving DecidableEq, Repr

/-- The object store: content-addressed lookup of commits
(`store[commit_id]`, raising `KeyError` when absent, modelled as `none`). -/
abbrev Store := Sha → Option Commit

/-- Errors the walk can raise: `MissingCommitError` from
`_CommitTimeQueue._push`, and Python `KeyError` (from `dict`/`set`
operations such as `set.remove` on an absent element). -/
inductive WalkErr where
  | missingCommit (id : Sha)
  | keyError
deriving DecidableEq, Repr

/-- `_MAX_EXTRA_COMMITS = 5`: maximum number of commits to walk past a
commit time boundary. -/
def MAX_EXTRA_COMMITS : Int := 5

/-- Add an element to a set modelled as a duplicate-free list
(Python `set.add`). -/
def insertNew (l : List Sha) (a : Sha) : List Sha :=
  if a ∈ l then l else a :: l

/-- Add many elements (Python `set.update`). -/
def insertAll (l : List Sha) (as : List Sha) : List Sha :=
  as.foldl insertNew l

/-- State of `_CommitTimeQueue`: the heap `_pq` (modelled as the list of
commits it holds, in insertion order; the heap key is the negated commit
time, so popping returns a commit of maximal `commit_time`), `_pq_set`,
`_done`, the shared exclusion set `_excluded`, `_min_time` (the walker's
`since`), and `_extra_commits_left`. -/
structure QState where
  pq : List Commit
  pqSet : List Sha
  done : List Sha
  excluded : List Sha
  min_time : Option Int
  extra : Int
deriving Repr

/-- `_CommitTimeQueue._push`: look the commit up in the store (raising
`MissingCommitError` if absent), then enqueue it unless its identifier is
already enqueued or done. -/
def qpush (store : Store) (s : QState) (cid : Sha) : Except WalkErr QState :=
  match store cid with
  | none => .error (.missingCommit cid)
  | some c =>
    if cid ∉ s.pqSet ∧ cid ∉ s.done then
      .ok { s with pq := s.pq ++ [c], pqSet := cid :: s.pqSet }
    else
      .ok s

/-- Remove a commit of maximal `commit_time` from the heap (heapq pops the
minimum of `(-commit_time, commit)`; ties between equal times are broken
arbitrarily by Python object comparison, modelled here by taking the
first maximal element in insertion order). -/
def popMax : List Commit → Option (Commit × List Commit)
  | [] => none
  | c :: rest =>
    match popMax rest with
    | none => some (c, [])
    | some (m, rest') =>
      if m.commit_time > c.commit_time then some (m, c :: rest')
      else some (c, rest)

/-- Construction of `_CommitTimeQueue`: push every include seed and every
exclude seed (`itertools.chain(walker.include, walker.excluded)`). -/
def qinit (store : Store) (includeIds excludeIds : List Sha)
    (since : Option Int) : Except WalkErr QState :=
  (includeIds ++ excludeIds).foldlM (qpush store)
    { pq := [], pqSet := [], done := [], excluded := excludeIds,
      min_time := since, extra := MAX_EXTRA_COMMITS }

/-- Outcome of one iteration of the `while self._pq:` loop of
`_CommitTimeQueue.next`. -/
inductive StepOut where
  | empty
  | stop
  | cont (s : QState)
  | emit (c : Commit) (s : QState)
deriving Repr

/-- The commit this loop iteration returned, if any. -/
def StepOut.emitted : StepOut → Option Commit
  | .emit c _ => some c
  | _ => none

/-- The successor queue state carried by this loop outcome, if any. -/
def StepOut.state? : StepOut → Option QState
  | .cont s => some s
  | .emit _ s => some s
  | _ => none

/-- The `since` boundary check of `_CommitTimeQueue.next`: when a lower
time bound is set and the popped commit is below it, decrement
`_extra_commits_left` and stop the walk (`break`) when it reaches zero;
when the popped commit is not below the bound, reset the counter.
Returns `none` when the walk must stop. -/
def boundary (c : Commit) (s : QState) : Option QState :=
  match s.min_time with
  | none => some s
  | some t =>
    if c.commit_time < t then
      if s.extra - 1 = 0 then none
      else some { s with extra := s.extra - 1 }
    else
      some { s with extra := MAX_EXTRA_COMMITS }

/-- Push every parent of the popped commit (`for parent_id in
commit.parents: self._push(parent_id)`). -/
def pushParents (store : Store) (c : Commit) (s : QState) :
    Except WalkErr QState :=
  c.parents.foldlM (qpush store) s

/-- After the boundary check: push the parents, then either yield the
commit or (when it was excluded) continue the loop. -/
def finishStep (store : Store) (c : Commit) (isExcluded : Bool)
    (s : QState) : Except WalkErr StepOut :=
  match pushParents store c s with
  | .error e => .error e
  | .ok s' => if isExcluded then .ok (.cont s') else .ok (.emit c s')

/-- One iteration of the loop body of `_CommitTimeQueue.next`: pop a
maximal-time commit and remove it from `_pq_set`; skip it if already done;
record exclusion propagation to its parents; mark it done; apply the
`since` boundary check; push its parents; yield it unless excluded. -/
def qstep (store : Store) (s : QState) : Except WalkErr StepOut :=
  match popMax s.pq with
  | none => .ok .empty
  | some (c, pq') =>
    let s1 : QState := { s with pq := pq', pqSet := s.pqSet.erase c.id }
    if c.id ∈ s1.done then .ok (.cont s1)
    else if c.id ∈ s1.excluded then
      match boundary c { s1 with excluded := insertAll s1.excluded c.parents,
                                 done := c.id :: s1.done } with
      | none => .ok .stop
      | some s4 => finishStep store c true s4
    else
      match boundary c { s1 with done := c.id :: s1.done } with
      | none => .ok .stop
      | some s4 => finishStep store c false s4

/-- `_CommitTimeQueue.next`: iterate the loop body until a commit is
yielded, the walk stops at the `since` boundary, or the frontier empties
(both of the latter return `None`).  The `fuel` argument bounds the number
of loop iterations; exhausted fuel is also modelled as `None`. -/
def qnextF (store : Store) : Nat → QState → Except WalkErr (Option (Commit × QState))
  | 0, _ => .ok none
  | fuel + 1, s =>
    match qstep store s with
    | .error e => .error e
    | .ok .empty => .ok none
    | .ok .stop => .ok none
    | .ok (.cont s') => qnextF store fuel s'
    | .ok (.emit c s') => .ok (some (c, s'))

/-- Change types of `dulwich.diff_tree` tree-change records. -/
inductive ChangeType where
  | add | copy | delete | modify | rename | unchanged
deriving DecidableEq, Repr

/-- `RENAME_CHANGE_TYPES = (CHANGE_RENAME, CHANGE_COPY)`. -/
def RENAME_CHANGE_TYPES : List ChangeType := [.rename, .copy]

/-- A tree-change record (external entity produced by the diff engine);
only the fields the walker consults are modelled: the change type and the
old-side and new-side paths (each possibly absent). -/
structure TreeChange where
  type : ChangeType
  old : Option Path
  new : Option Path
deriving DecidableEq, Repr

/-- The shape of `WalkEntry.changes()`: a flat list of change records for
commits with at most one parent, one list per parent for merge commits. -/
inductive Changes where
  | flat (cs : List TreeChange)
  | merge (css : List (List TreeChange))
deriving DecidableEq, Repr

/-- The external pairwise tree diff `dulwich.diff_tree.tree_changes`
(kept abstract as a configuration field): old tree (`none` = the empty
tree, for parentless commits) and new tree to a list of change records.
The rename detector, when configured, is folded into this function. -/
abbrev TreeChangesFn := Option Nat → Nat → List TreeChange

/-- Modelled from the spec: `dulwich.diff_tree.tree_changes_for_merge` is
not part of this source tree; per the spec's Diff Engine contract it
"diffs each parent's tree against the commit's tree independently; result
is one change-record sequence per parent, preserving parent order". -/
def tree_changes_for_merge (tc : TreeChangesFn) (parentTrees : List Nat)
    (tree : Nat) : List (List TreeChange) :=
  parentTrees.map fun pt => tc (some pt) tree

/-- `WalkEntry.changes`: no parents — diff the empty tree against the
commit's tree; one parent — look up the parent and diff its tree against
the commit's tree; two or more parents — look up every parent's tree and
hand them to the merge diff.  A store lookup failure is a Python
`KeyError`. -/
def WalkEntry.changes (store : Store) (tc : TreeChangesFn) (c : Commit) :
    Except WalkErr Changes :=
  match c.parents with
  | [] => .ok (.flat (tc none c.tree))
  | [p] =>
    match store p with
    | none => .error .keyError
    | some pc => .ok (.flat (tc (some pc.tree) c.tree))
  | _ =>
    match c.parents.mapM (fun p =>
        match store p with
        | none => Except.error WalkErr.keyError
        | some pc => Except.ok pc.tree) with
    | .error e => .error e
    | .ok trees => .ok (.merge (tree_changes_for_merge tc trees c.tree))

/-- `Walker._path_matches`: a changed path matches when it equals a
followed path, or starts with a followed path immediately followed by the
path separator (`changed_path.startswith(followed_path) and
changed_path[len(followed_path)] == '/'`); a `None` path never matches. -/
def path_matches (paths : List Path) : Option Path → Bool
  | none => false
  | some p => paths.any fun fp =>
      decide (p = fp) ||
        (decide (fp <+: p) && decide (p.get? fp.length = some '/'))

/-- `Walker._change_matches`: the change matches when its new-side path
matches (in follow mode a matching rename/copy record additionally adds
the old path to the followed set and removes the new path — Python
`set.remove`, raising `KeyError` when the new path is not itself a
member), or else when its old-side path matches.  Returns the match
result together with the (possibly mutated) followed-path set. -/
def change_matches (follow : Bool) (paths : List Path) (ch : TreeChange) :
    Except WalkErr (Bool × List Path) :=
  match ch with
  | ⟨ty, old, some np⟩ =>
    if path_matches paths (some np) then
      if follow && decide (ty ∈ RENAME_CHANGE_TYPES) then
        let paths1 := match old with
          | some op => if op ∈ paths then paths else op :: paths
          | none => paths
        if np ∈ paths1 then .ok (true, paths1.erase np)
        else .error .keyError
      else .ok (true, paths)
    else if path_matches paths old then .ok (true, paths)
    else .ok (false, paths)
  | ⟨_, old, none⟩ =>
    if path_matches paths old then .ok (true, paths)
    else .ok (false, paths)

/-- The `for change in entry.changes(): if self._change_matches(change):
return True` loop over a flat change list, threading the followed-path
set. -/
def matchAny (follow : Bool) : List Path → List TreeChange →
    Except WalkErr (Bool × List Path)
  | ps, [] => .ok (false, ps)
  | ps, ch :: rest =>
    match change_matches follow ps ch with
    | .error e => .error e
    | .ok (true, ps') => .ok (true, ps')
    | .ok (false, ps') => matchAny follow ps' rest

/-- The nested loop over the per-parent change lists of a merge commit. -/
def matchAnyMerge (follow : Bool) : List Path → List (List TreeChange) →
    Except WalkErr (Bool × List Path)
  | ps, [] => .ok (false, ps)
  | ps, cs :: rest =>
    match matchAny follow ps cs with
    | .error e => .error e
    | .ok (true, ps') => .ok (true, ps')
    | .ok (false, ps') => matchAnyMerge follow ps' rest

/-- The walker configuration consulted by `_should_return` and `_next`:
the store, the abstract diff engine, the `since`/`until` bounds, the
`follow` flag and the entry cap. -/
structure WCfg where
  store : Store
  tree_changes : TreeChangesFn
  since : Option Int
  until_ : Option Int
  follow : Bool
  max_entries : Option Nat

/-- `Walker._should_return`: reject commits outside the `since`/`until`
bounds; accept unconditionally when no path filter is configured;
otherwise accept exactly when some change record matches (per-parent
lists for merge commits, the flat list otherwise; Python returns `None`
— falsy — when nothing matched, modelled as `false`).  Returns the
decision together with the possibly mutated followed-path set. -/
def should_return (cfg : WCfg) (paths : Option (List Path)) (c : Commit) :
    Except WalkErr (Bool × Option (List Path)) :=
  match cfg.since with
  | some t =>
    if c.commit_time < t then .ok (false, paths)
    else should_return_until cfg paths c
  | none => should_return_until cfg paths c
where
  should_return_until (cfg : WCfg) (paths : Option (List Path)) (c : Commit) :
      Except WalkErr (Bool × Option (List Path)) :=
    match cfg.until_ with
    | some t =>
      if c.commit_time > t then .ok (false, paths)
      else should_return_paths cfg paths c
    | none => should_return_paths cfg paths c
  should_return_paths (cfg : WCfg) (paths : Option (List Path)) (c : Commit) :
      Except WalkErr (Bool × Option (List Path)) :=
    match paths with
    | none => .ok (true, none)
    | some ps =>
      match WalkEntry.changes cfg.store cfg.tree_changes c with
      | .error e => .error e
      | .ok (.flat cs) =>
        match matchAny cfg.follow ps cs with
        | .error e => .error e
        | .ok (b, ps') => .ok (b, some ps')
      | .ok (.merge css) =>
        match matchAnyMerge cfg.follow ps css with
        | .error e => .error e
        | .ok (b, ps') => .ok (b, some ps')

/-- Mutable walker state: the queue, the followed-path set (`self.paths`)
and the accepted-entry count (`self._num_entries`). -/
structure WState where
  q : QState
  paths : Option (List Path)
  num_entries : Nat

/-- `self._num_entries >= max_entries`. -/
def maxReached (maxE : Option Nat) (n : Nat) : Bool :=
  match maxE with
  | none => false
  | some m => decide (n ≥ m)

/-- `Walker._next` fused with the iteration of `iter(self._next, None)`:
repeatedly stop when the entry cap is reached, pop from the queue (the
walk ends when the queue yields nothing), filter with `_should_return`,
and collect accepted commits in order.  `wfuel` bounds the number of
queue pulls, `qfuel` the loop iterations inside each pull. -/
def walkLoop (cfg : WCfg) (qfuel : Nat) : Nat → WState →
    Except WalkErr (List Commit)
  | 0, _ => .ok []
  | wfuel + 1, st =>
    if maxReached cfg.max_entries st.num_entries then .ok []
    else
      match qnextF cfg.store qfuel st.q with
      | .error e => .error e
      | .ok none => .ok []
      | .ok (some (c, q')) =>
        match should_return cfg st.paths c with
        | .error e => .error e
        | .ok (true, paths') =>
          match walkLoop cfg qfuel wfuel
              { q := q', paths := paths', num_entries := st.num_entries + 1 } with
          | .error e => .error e
          | .ok rest => .ok (c :: rest)
        | .ok (false, paths') =>
          walkLoop cfg qfuel wfuel
            { q := q', paths := paths', num_entries := st.num_entries }

/-- The `Walker` constructor arguments (the rename detector is folded
into the abstract diff engine; only the date order is modelled since any
other order is rejected at construction). -/
structure Walker where
  store : Store
  includeIds : List Sha
  exclude : List Sha
  reverse : Bool
  max_entries : Option Nat
  paths : Option (List Path)
  follow : Bool
  since : Option Int
  until_ : Option Int
  tree_changes : TreeChangesFn

/-- `self.paths = paths and set(paths) or None`: no filter when the
argument is absent or empty, otherwise the set of the given paths. -/
def pathsInit : Option (List Path) → Option (List Path)
  | none => none
  | some ps => if ps.isEmpty then none else some ps.dedup

/-- The filtering configuration of a walker. -/
def Walker.cfg (w : Walker) : WCfg :=
  { store := w.store, tree_changes := w.tree_changes, since := w.since,
    until_ := w.until_, follow := w.follow, max_entries := w.max_entries }

/-- Walker construction: build the commit-time queue from the include and
exclude seeds and initialize the followed-path set and entry count. -/
def Walker.init (w : Walker) : Except WalkErr WState :=
  match qinit w.store w.includeIds w.exclude w.since with
  | .error e => .error e
  | .ok q => .ok { q := q, paths := pathsInit w.paths, num_entries := 0 }

/-- `Walker.__iter__`: run the walk and, when `reverse` is set,
materialize the whole accepted sequence and emit it reversed. -/
def Walker.run (w : Walker) (qfuel wfuel : Nat) : Except WalkErr (List Commit) :=
  match w.init with
  | .error e => .error e
  | .ok st =>
    match walkLoop w.cfg qfuel wfuel st with
    | .error e => .error e
    | .ok l => .ok (if w.reverse then l.reverse else l)

/-! ### Queue lemmas -/

theorem qpush_ok_inv {store : Store} {s : QState} {cid : Sha} {s' : QState}
    (h : qpush store s cid = .ok s') :
    s'.done = s.done ∧ s'.excluded = s.excluded ∧ s'.min_time = s.min_time ∧
    s'.extra = s.extra ∧ ∀ x, x ∈ s.pqSet → x ∈ s'.pqSet := by
  unfold qpush at h
  split at h
  · exact Except.noConfusion h
  · split at h
    · injection h with h; subst h
      exact ⟨rfl, rfl, rfl, rfl, fun x hx => List.mem_cons_of_mem _ hx⟩
    · injection h with h; subst h
      exact ⟨rfl, rfl, rfl, rfl, fun x hx => hx⟩

theorem qpush_ok_mem {store : Store} {s : QState} {cid : Sha} {s' : QState}
    (h : qpush store s cid = .ok s') : cid ∈ s'.pqSet ∨ cid ∈ s'.done := by
  unfold qpush at h
  split at h
  · exact Except.noConfusion h
  · split at h
    · injection h with h; subst h
      exact Or.inl (List.mem_cons_self _ _)
    · next hcond =>
      injection h with h; subst h
      rcases not_and_or.mp hcond with h1 | h2
      · exact Or.inl (not_not.mp h1)
      · exact Or.inr (not_not.mp h2)

theorem qpush_missing {store : Store} {s : QState} {cid : Sha}
    (hc : store cid = none) :
    qpush store s cid = .error (.missingCommit cid) := by
  unfold qpush; rw [hc]

theorem foldlM_qpush_inv {store : Store} :
    ∀ (l : List Sha) (s s' : QState),
      List.foldlM (qpush store) s l = .ok s' →
      s'.done = s.done ∧ s'.excluded = s.excluded ∧ s'.min_time = s.min_time ∧
      s'.extra = s.extra ∧ ∀ x, x ∈ s.pqSet → x ∈ s'.pqSet := by
  intro l
  induction l with
  | nil =>
    intro s s' h
    have h' : (Except.ok s : Except WalkErr QState) = .ok s' := h
    injection h' with h'; subst h'
    exact ⟨rfl, rfl, rfl, rfl, fun x hx => hx⟩
  | cons a t ih =>
    intro s s' h
    have h0 : qpush store s a >>= (fun s1 => List.foldlM (qpush store) s1 t)
        = .ok s' := h
    cases hq : qpush store s a with
    | error e => rw [hq] at h0; exact absurd h0 (by simp [Bind.bind, Except.bind])
    | ok s1 =>
      rw [hq] at h0
      have h1 : List.foldlM (qpush store) s1 t = .ok s' := h0
      obtain ⟨d1, e1, m1, x1, p1⟩ := qpush_ok_inv hq
      obtain ⟨d2, e2, m2, x2, p2⟩ := ih s1 s' h1
      exact ⟨by rw [d2, d1], by rw [e2, e1], by rw [m2, m1], by rw [x2, x1],
        fun x hx => p2 x (p1 x hx)⟩

theorem foldlM_qpush_mem {store : Store} :
    ∀ (l : List Sha) (s s' : QState),
      List.foldlM (qpush store) s l = .ok s' →
      ∀ p ∈ l, p ∈ s'.pqSet ∨ p ∈ s'.done := by
  intro l
  induction l with
  | nil => intro s s' _ p hp; exact absurd hp (List.not_mem_nil p)
  | cons a t ih =>
    intro s s' h p hp
    have h0 : qpush store s a >>= (fun s1 => List.foldlM (qpush store) s1 t)
        = .ok s' := h
    cases hq : qpush store s a with
    | error e => rw [hq] at h0; exact absurd h0 (by simp [Bind.bind, Except.bind])
    | ok s1 =>
      rw [hq] at h0
      have h1 : List.foldlM (qpush store) s1 t = .ok s' := h0
      rcases List.mem_cons.mp hp with rfl | hpt
      · obtain ⟨d2, _, _, _, p2⟩ := foldlM_qpush_inv t s1 s' h1
        rcases qpush_ok_mem hq with hin | hin
        · exact Or.inl (p2 p hin)
        · exact Or.inr (by rw [d2]; exact hin)
      · exact ih s1 s' h1 p hpt

theorem foldlM_qpush_missing {store : Store} :
    ∀ (l : List Sha) (s : QState), (∃ p ∈ l, store p = none) →
      ∃ j, store j = none ∧
        List.foldlM (qpush store) s l = .error (.missingCommit j) := by
  intro l
  induction l with
  | nil => intro s h; obtain ⟨p, hp, _⟩ := h; exact absurd hp (List.not_mem_nil p)
  | cons a t ih =>
    intro s h
    cases hq : store a with
    | none =>
      refine ⟨a, hq, ?_⟩
      have : qpush store s a = .error (.missingCommit a) := qpush_missing hq
      show qpush store s a >>= (fun s1 => List.foldlM (qpush store) s1 t)
          = .error (.missingCommit a)
      rw [this]; rfl
    | some c =>
      obtain ⟨p, hp, hpn⟩ := h
      have hpt : p ∈ t := by
        rcases List.mem_cons.mp hp with rfl | hpt
        · rw [hq] at hpn; exact absurd hpn (by simp)
        · exact hpt
      have hqp : ∃ s1, qpush store s a = .ok s1 := by
        by_cases hcond : a ∉ s.pqSet ∧ a ∉ s.done
        · refine ⟨{ s with pq := s.pq ++ [c], pqSet := a :: s.pqSet }, ?_⟩
          unfold qpush; rw [hq]; simp [hcond]
        · exact ⟨s, by unfold qpush; rw [hq]; simp [hcond]⟩
      obtain ⟨s1, hs1⟩ := hqp
      obtain ⟨j, hj, hfold⟩ := ih s1 ⟨p, hpt, hpn⟩
      refine ⟨j, hj, ?_⟩
      show qpush store s a >>= (fun s2 => List.foldlM (qpush store) s2 t)
          = .error (.missingCommit j)
      rw [hs1]
      exact hfold

theorem mem_insertNew_self (l : List Sha) (a : Sha) : a ∈ insertNew l a := by
  unfold insertNew
  split
  · assumption
  · exact List.mem_cons_self _ _

theorem mem_insertNew_of_mem {l : List Sha} {x : Sha} (a : Sha)
    (h : x ∈ l) : x ∈ insertNew l a := by
  unfold insertNew
  split
  · exact h
  · exact List.mem_cons_of_mem _ h

theorem mem_insertAll_of_mem {l : List Sha} {x : Sha} :
    ∀ (as : List Sha), x ∈ l → x ∈ insertAll l as := by
  intro as
  induction as generalizing l with
  | nil => intro h; exact h
  | cons a t ih =>
    intro h
    exact ih (mem_insertNew_of_mem a h)

theorem mem_insertAll_of_mem_arg {x : Sha} :
    ∀ (as : List Sha) (l : List Sha), x ∈ as → x ∈ insertAll l as := by
  intro as
  induction as with
  | nil => intro l h; exact absurd h (List.not_mem_nil x)
  | cons a t ih =>
    intro l h
    rcases List.mem_cons.mp h with rfl | ht
    · exact mem_insertAll_of_mem t (mem_insertNew_self l x)
    · exact ih _ ht

theorem boundary_some_inv {c : Commit} {s s4 : QState}
    (h : boundary c s = some s4) :
    s4.pq = s.pq ∧ s4.pqSet = s.pqSet ∧ s4.done = s.done ∧
    s4.excluded = s.excluded := by
  unfold boundary at h
  split at h
  · injection h with h; subst h; exact ⟨rfl, rfl, rfl, rfl⟩
  · split at h
    · split at h
      · exact Option.noConfusion h
      · injection h with h; subst h; exact ⟨rfl, rfl, rfl, rfl⟩
    · injection h with h; subst h; exact ⟨rfl, rfl, rfl, rfl⟩

theorem finishStep_cont_inv {store : Store} {c : Commit} {b : Bool}
    {s : QState} {s' : QState}
    (h : finishStep store c b s = .ok (.cont s')) :
    pushParents store c s = .ok s' ∧ b = true := by
  unfold finishStep at h
  split at h
  · exact Except.noConfusion h
  · next s5 hps =>
    cases b with
    | false => simp at h
    | true => simp at h; subst h; exact ⟨hps, rfl⟩

theorem finishStep_emit_inv {store : Store} {c : Commit} {b : Bool}
    {s : QState} {c' : Commit} {s' : QState}
    (h : finishStep store c b s = .ok (.emit c' s')) :
    pushParents store c s = .ok s' ∧ b = false ∧ c' = c := by
  unfold finishStep at h
  split at h
  · exact Except.noConfusion h
  · next s5 hps =>
    cases b with
    | false =>
      simp at h
      obtain ⟨hc, hs⟩ := h
      subst hc; subst hs
      exact ⟨hps, rfl, rfl⟩
    | true => simp at h

theorem qstep_emit_inv {store : Store} {s : QState} {c : Commit} {s' : QState}
    (h : qstep store s = .ok (.emit c s')) :
    c.id ∉ s.done ∧ c.id ∈ s'.done ∧ (∀ x, x ∈ s.done → x ∈ s'.done) ∧
    c.id ∉ s'.excluded := by
  unfold qstep at h
  split at h
  · simp at h
  · next c0 pq' hpop =>
    simp only [] at h
    split at h
    · simp at h
    · next hdone =>
      split at h
      · next hexcl =>
        split at h
        · simp at h
        · next s4 hb =>
          obtain ⟨_, htrue, _⟩ := finishStep_emit_inv h
          exact Bool.noConfusion htrue
      · next hexcl =>
        split at h
        · simp at h
        · next s4 hb =>
          obtain ⟨hps, _, hc⟩ := finishStep_emit_inv h
          subst hc
          obtain ⟨hd5, he5, _, _, _⟩ := foldlM_qpush_inv _ _ _ hps
          obtain ⟨_, _, hd4, he4⟩ := boundary_some_inv hb
          refine ⟨hdone, ?_, ?_, ?_⟩
          · rw [hd5, hd4]; exact List.mem_cons_self _ _
          · intro x hx; rw [hd5, hd4]; exact List.mem_cons_of_mem _ hx
          · rw [he5, he4]; exact hexcl

theorem qstep_cont_done_mono {store : Store} {s s' : QState}
    (h : qstep store s = .ok (.cont s')) : ∀ x, x ∈ s.done → x ∈ s'.done := by
  unfold qstep at h
  split at h
  · simp at h
  · next c0 pq' hpop =>
    simp only [] at h
    split at h
    · simp at h; subst h; exact fun x hx => hx
    · next hdone =>
      split at h
      · next hexcl =>
        split at h
        · simp at h
        · next s4 hb =>
          obtain ⟨hps, _⟩ := finishStep_cont_inv h
          obtain ⟨hd5, _, _, _, _⟩ := foldlM_qpush_inv _ _ _ hps
          obtain ⟨_, _, hd4, _⟩ := boundary_some_inv hb
          intro x hx
          rw [hd5, hd4]
          exact List.mem_cons_of_mem _ hx
      · next hexcl =>
        split at h
        · simp at h
        · next s4 hb =>
          obtain ⟨_, hfalse⟩ := finishStep_cont_inv h
          exact Bool.noConfusion hfalse

theorem qnextF_emit_inv {store : Store} :
    ∀ (fuel : Nat) (s : QState) (c : Commit) (s' : QState),
      qnextF store fuel s = .ok (some (c, s')) →
      c.id ∉ s.done ∧ c.id ∈ s'.done ∧ (∀ x, x ∈ s.done → x ∈ s'.done) ∧
      c.id ∉ s'.excluded := by
  intro fuel
  induction fuel with
  | zero => intro s c s' h; simp [qnextF] at h
  | succ n ih =>
    intro s c s' h
    unfold qnextF at h
    cases hq : qstep store s with
    | error e => rw [hq] at h; exact Except.noConfusion h
    | ok out =>
      rw [hq] at h
      cases out with
      | empty => simp at h
      | stop => simp at h
      | cont s1 =>
        simp only [] at h
        obtain ⟨h1, h2, h3, h4⟩ := ih s1 c s' h
        have mono := qstep_cont_done_mono hq
        exact ⟨fun hx => h1 (mono _ hx), h2, fun x hx => h3 x (mono x hx), h4⟩
      | emit c1 s1 =>
        simp at h
        obtain ⟨hc, hs⟩ := h
        subst hc; subst hs
        exact qstep_emit_inv hq

/-! ### Walker-level invariants -/

theorem walkLoop_nodup_inv (cfg : WCfg) (qf : Nat) :
    ∀ (n : Nat) (st : WState) (out : List Commit),
      walkLoop cfg qf n st = .ok out →
      (out.map Commit.id).Nodup ∧ ∀ d ∈ out, d.id ∉ st.q.done := by
  intro n
  induction n with
  | zero =>
    intro st out h
    have h' : (Except.ok [] : Except WalkErr (List Commit)) = .ok out := h
    injection h' with h'; subst h'
    exact ⟨List.nodup_nil, fun d hd => absurd hd (List.not_mem_nil d)⟩
  | succ n ih =>
    intro st out h
    unfold walkLoop at h
    split at h
    · injection h with h; subst h
      exact ⟨List.nodup_nil, fun d hd => absurd hd (List.not_mem_nil d)⟩
    · cases hq : qnextF cfg.store qf st.q with
      | error e => rw [hq] at h; exact Except.noConfusion h
      | ok o =>
        rw [hq] at h
        cases o with
        | none =>
          injection h with h; subst h
          exact ⟨List.nodup_nil, fun d hd => absurd hd (List.not_mem_nil d)⟩
        | some p =>
          obtain ⟨c, q'⟩ := p
          simp only [] at h
          cases hs : should_return cfg st.paths c with
          | error e => rw [hs] at h; exact Except.noConfusion h
          | ok bp =>
            rw [hs] at h
            obtain ⟨b, paths'⟩ := bp
            cases b with
            | true =>
              simp only [] at h
              cases hr : walkLoop cfg qf n
                  { q := q', paths := paths',
                    num_entries := st.num_entries + 1 } with
              | error e => rw [hr] at h; exact Except.noConfusion h
              | ok rest =>
                rw [hr] at h
                injection h with h; subst h
                obtain ⟨hnd, hmem⟩ := ih _ _ hr
                obtain ⟨h1, h2, h3, _⟩ := qnextF_emit_inv qf st.q c q' hq
                constructor
                · rw [List.map_cons, List.nodup_cons]
                  refine ⟨?_, hnd⟩
                  intro hin
                  obtain ⟨d, hd, hde⟩ := List.mem_map.mp hin
                  exact hmem d hd (by rw [hde]; exact h2)
                · intro d hd
                  rcases List.mem_cons.mp hd with rfl | hdr
                  · exact h1
                  · exact fun hcontra => hmem d hdr (h3 _ hcontra)
            | false =>
              simp only [] at h
              obtain ⟨hnd, hmem⟩ := ih _ _ h
              obtain ⟨_, _, h3, _⟩ := qnextF_emit_inv qf st.q c q' hq
              exact ⟨hnd, fun d hd hcontra => hmem d hd (h3 _ hcontra)⟩

/-- **C1.** Over a complete iteration of the Walker, no commit identifier
appears in the emitted sequence more than once (for every store and every
configuration, including diamond/merge topologies); moreover a commit
identifier that is already enqueued or already done is never re-enqueued
(`_push` leaves the queue unchanged). -/
theorem C1_no_duplicate_emission :
    (∀ (w : Walker) (qfuel wfuel : Nat) (out : List Commit),
       Walker.run w qfuel wfuel = .ok out → (out.map Commit.id).Nodup) ∧
    (∀ (store : Store) (s : QState) (cid : Sha) (c : Commit),
       store cid = some c → (cid ∈ s.pqSet ∨ cid ∈ s.done) →
       qpush store s cid = .ok s) := by
  constructor
  · intro w qf wf out h
    unfold Walker.run at h
    cases hi : w.init with
    | error e => rw [hi] at h; exact Except.noConfusion h
    | ok st =>
      rw [hi] at h
      simp only [] at h
      cases hl : walkLoop w.cfg qf wf st with
      | error e => rw [hl] at h; exact Except.noConfusion h
      | ok l =>
        rw [hl] at h
        injection h with h; subst h
        have hnd := (walkLoop_nodup_inv _ _ _ _ _ hl).1
        by_cases hr : w.reverse
        · rw [if_pos hr, List.map_reverse]
          exact List.nodup_reverse.mpr hnd
        · rw [if_neg hr]
          exact hnd
  · intro store s cid c hc hmem
    unfold qpush
    rw [hc]
    simp only []
    rw [if_neg]
    intro hcond
    rcases hmem with hm | hm
    · exact hcond.1 hm
    · exact hcond.2 hm

/-! ### Concrete commits, stores and walkers used by witnesses -/

def cA : Commit := ⟨1, [], 100, 10⟩
def cB : Commit := ⟨2, [1], 100, 20⟩
def cC : Commit := ⟨3, [2], 100, 30⟩
def cD : Commit := ⟨4, [3], 100, 40⟩
def cC2 : Commit := ⟨6, [2], 100, 35⟩
def cM : Commit := ⟨5, [3, 6], 100, 50⟩

/-- A store holding a linear chain `cA ← cB ← cC ← cD` together with a
diamond: merge commit `cM` with parents `cC` and `cC2`, both reaching
`cB`. -/
def store0 : Store := fun n =>
  if n = 1 then some cA
  else if n = 2 then some cB
  else if n = 3 then some cC
  else if n = 4 then some cD
  else if n = 5 then some cM
  else if n = 6 then some cC2
  else none

/-- A walker over `store0` with the given include and exclude seeds and
no other filtering. -/
def mkW (inc exc : List Sha) : Walker :=
  ⟨store0, inc, exc, false, none, none, false, none, none, fun _ _ => []⟩

theorem C1_witness :
    (([cM, cC2, cC, cB, cA].map Commit.id).Nodup) ∧
    qpush store0
      { pq := [cA], pqSet := [1], done := [], excluded := [],
        min_time := none, extra := 5 } 1 =
      .ok { pq := [cA], pqSet := [1], done := [], excluded := [],
            min_time := none, extra := 5 } :=
  ⟨C1_no_duplicate_emission.1 (mkW [5] []) 20 20 [cM, cC2, cC, cB, cA] (by rfl),
   C1_no_duplicate_emission.2 store0 _ 1 cA (by rfl)
     (Or.inl (List.mem_cons_self _ _))⟩

/-- **C2.** Popping a commit that is in the exclusion set adds all of its
parent identifiers to the exclusion set and produces no result for it
(the loop continues instead of yielding); the commit is still traversed:
on continuation each parent is enqueued (or was already enqueued/done);
and globally, a commit that is excluded at its pop is never emitted by
the queue. -/
theorem C2_exclusion_propagation
    {store : Store} {s : QState} {c : Commit} {pq' : List Commit}
    (hpop : popMax s.pq = some (c, pq')) (hdone : c.id ∉ s.done)
    (hexcl : c.id ∈ s.excluded) :
    (∀ out, qstep store s = .ok out → out.emitted = none) ∧
    (∀ s', qstep store s = .ok (.cont s') →
       (∀ p ∈ c.parents, p ∈ s'.excluded) ∧
       (∀ p ∈ c.parents, p ∈ s'.pqSet ∨ p ∈ s'.done)) ∧
    (∀ (fuel : Nat) (s1 : QState) (c1 : Commit) (s1' : QState),
       qnextF store fuel s1 = .ok (some (c1, s1')) → c1.id ∉ s1'.excluded) := by
  refine ⟨?_, ?_, ?_⟩
  · intro out hout
    unfold qstep at hout
    rw [hpop] at hout
    simp only [] at hout
    rw [if_neg hdone, if_pos hexcl] at hout
    split at hout
    · injection hout with hout; subst hout; rfl
    · next s4 hb =>
      unfold finishStep at hout
      split at hout
      · exact Except.noConfusion hout
      · next s5 hps =>
        simp at hout
        subst hout
        rfl
  · intro s' hout
    unfold qstep at hout
    rw [hpop] at hout
    simp only [] at hout
    rw [if_neg hdone, if_pos hexcl] at hout
    split at hout
    · simp at hout
    · next s4 hb =>
      unfold finishStep at hout
      split at hout
      · exact Except.noConfusion hout
      · next s5 hps =>
        simp at hout
        subst hout
        obtain ⟨_, hpq4, hd4, he4⟩ := boundary_some_inv hb
        obtain ⟨hd5, he5, _, _, hp5⟩ := foldlM_qpush_inv _ _ _ hps
        constructor
        · intro p hp
          rw [he5, he4]
          exact mem_insertAll_of_mem_arg _ _ hp
        · intro p hp
          exact foldlM_qpush_mem _ _ _ hps p hp
  · intro fuel s1 c1 s1' h
    exact (qnextF_emit_inv fuel s1 c1 s1' h).2.2.2

/-- Queue state used by the C2 witness: `cB` is at the head of the queue
and is excluded. -/
def qs2 : QState :=
  { pq := [cB], pqSet := [2], done := [], excluded := [2],
    min_time := none, extra := 5 }

/-- The state after popping `cB` from `qs2`: its parent `cA` is enqueued
and marked excluded. -/
def qs2' : QState :=
  { pq := [cA], pqSet := [1], done := [2], excluded := [1, 2],
    min_time := none, extra := 5 }

theorem C2_witness :
    StepOut.emitted (StepOut.cont qs2') = none ∧
    1 ∈ qs2'.excluded ∧ (1 ∈ qs2'.pqSet ∨ 1 ∈ qs2'.done) :=
  ⟨(@C2_exclusion_propagation store0 qs2 cB []
      (by rfl) (by decide) (by decide)).1 _ (by rfl),
   ((@C2_exclusion_propagation store0 qs2 cB []
      (by rfl) (by decide) (by decide)).2.1 qs2' (by rfl)).1 1 (by decide),
   ((@C2_exclusion_propagation store0 qs2 cB []
      (by rfl) (by decide) (by decide)).2.1 qs2' (by rfl)).2 1 (by decide)⟩

/-- **C3.** With `since = T`: the per-queue overrun counter is
initialized to `_MAX_EXTRA_COMMITS = 5`; popping a fresh commit below `T`
when the counter is at 1 stops the walk (no further state, no entry);
popping a fresh commit below `T` otherwise decrements the counter by one;
popping a fresh commit not below `T` resets the counter to 5; a stopped
queue makes `next` return nothing, and a queue that returns nothing ends
the walker's iteration with no further entries. -/
theorem C3_since_boundary_overrun
    {store : Store} {s : QState} {c : Commit} {pq' : List Commit} {T : Int}
    (hpop : popMax s.pq = some (c, pq')) (hdone : c.id ∉ s.done)
    (hmin : s.min_time = some T) :
    (c.commit_time < T → s.extra = 1 → qstep store s = .ok .stop) ∧
    (c.commit_time < T → s.extra ≠ 1 →
      ∀ out s4, qstep store s = .ok out → out.state? = some s4 →
        s4.extra = s.extra - 1) ∧
    (¬ c.commit_time < T →
      ∀ out s4, qstep store s = .ok out → out.state? = some s4 →
        s4.extra = MAX_EXTRA_COMMITS) ∧
    (∀ (st2 : Store) (inc exc : List Sha) (since : Option Int) (q : QState),
       qinit st2 inc exc since = .ok q → q.extra = MAX_EXTRA_COMMITS) ∧
    (∀ (n : Nat) (s1 : QState), qstep store s1 = .ok .stop →
       qnextF store (n + 1) s1 = .ok none) ∧
    (∀ (cfg : WCfg) (qf m : Nat) (st : WState),
       maxReached cfg.max_entries st.num_entries = false →
       qnextF cfg.store qf st.q = .ok none →
       walkLoop cfg qf (m + 1) st = .ok []) := by
  refine ⟨?_, ?_, ?_, ?_, ?_, ?_⟩
  · intro hlt hextra
    unfold qstep
    rw [hpop]
    simp only []
    rw [if_neg hdone]
    by_cases hexcl : c.id ∈ s.excluded
    · rw [if_pos hexcl, hmin]
      simp only [boundary]
      rw [if_pos hlt, hextra]
      simp
    · rw [if_neg hexcl, hmin]
      simp only [boundary]
      rw [if_pos hlt, hextra]
      simp
  · intro hlt hextra out s4 hout hst
    have hne : ¬ (s.extra - 1 = 0) := by omega
    unfold qstep at hout
    rw [hpop] at hout
    simp only [] at hout
    rw [if_neg hdone] at hout
    by_cases hexcl : c.id ∈ s.excluded
    · rw [if_pos hexcl, hmin] at hout
      simp only [boundary] at hout
      rw [if_pos hlt, if_neg hne] at hout
      simp only [] at hout
      unfold finishStep at hout
      split at hout
      · exact Except.noConfusion hout
      · next s5 hps =>
        have he5 := (foldlM_qpush_inv _ _ _ hps).2.2.2.1
        simp at hout
        subst hout
        simp only [StepOut.state?] at hst
        injection hst with hst; subst hst
        exact he5
    · rw [if_neg hexcl, hmin] at hout
      simp only [boundary] at hout
      rw [if_pos hlt, if_neg hne] at hout
      simp only [] at hout
      unfold finishStep at hout
      split at hout
      · exact Except.noConfusion hout
      · next s5 hps =>
        have he5 := (foldlM_qpush_inv _ _ _ hps).2.2.2.1
        simp at hout
        subst hout
        simp only [StepOut.state?] at hst
        injection hst with hst; subst hst
        exact he5
  · intro hge out s4 hout hst
    unfold qstep at hout
    rw [hpop] at hout
    simp only [] at hout
    rw [if_neg hdone] at hout
    by_cases hexcl : c.id ∈ s.excluded
    · rw [if_pos hexcl, hmin] at hout
      simp only [boundary] at hout
      rw [if_neg hge] at hout
      simp only [] at hout
      unfold finishStep at hout
      split at hout
      · exact Except.noConfusion hout
      · next s5 hps =>
        have he5 := (foldlM_qpush_inv _ _ _ hps).2.2.2.1
        simp at hout
        subst hout
        simp only [StepOut.state?] at hst
        injection hst with hst; subst hst
        exact he5
    · rw [if_neg hexcl, hmin] at hout
      simp only [boundary] at hout
      rw [if_neg hge] at hout
      simp only [] at hout
      unfold finishStep at hout
      split at hout
      · exact Except.noConfusion hout
      · next s5 hps =>
        have he5 := (foldlM_qpush_inv _ _ _ hps).2.2.2.1
        simp at hout
        subst hout
        simp only [StepOut.state?] at hst
        injection hst with hst; subst hst
        exact he5
  · intro st2 inc exc since q h
    unfold qinit at h
    exact (foldlM_qpush_inv _ _ _ h).2.2.2.1
  · intro n s1 h
    unfold qnextF
    rw [h]
  · intro cfg qf m st hmax hq
    unfold walkLoop
    rw [hmax]
    simp only [Bool.false_eq_true, if_false]
    rw [hq]

/-- Queue state for the C3 witness: `cA` (commit time 10) at the head,
`since = 100`, one boundary overrun left. -/
def qs3 : QState :=
  { pq := [cA], pqSet := [1], done := [], excluded := [],
    min_time := some 100, extra := 1 }

theorem C3_witness : qstep store0 qs3 = .ok .stop :=
  (@C3_since_boundary_overrun store0 qs3 cA [] 100
    (by rfl) (by decide) (by rfl)).1 (by decide) (by decide)

theorem maxReached_none (k : Nat) : maxReached none k = false := rfl

theorem maxReached_some (m k : Nat) :
    maxReached (some m) k = decide (k ≥ m) := rfl

theorem should_return_max_irrel (store : Store) (tc : TreeChangesFn)
    (since until_ : Option Int) (follow : Bool) (m m' : Option Nat)
    (paths : Option (List Path)) (c : Commit) :
    should_return ⟨store, tc, since, until_, follow, m⟩ paths c =
    should_return ⟨store, tc, since, until_, follow, m'⟩ paths c := rfl

theorem walkLoop_capped (store : Store) (tc : TreeChangesFn)
    (since until_ : Option Int) (follow : Bool) (N qf : Nat) :
    ∀ (n : Nat) (st : WState) (l : List Commit),
      walkLoop ⟨store, tc, since, until_, follow, none⟩ qf n st = .ok l →
      walkLoop ⟨store, tc, since, until_, follow, some N⟩ qf n st =
        .ok (l.take (N - st.num_entries)) := by
  intro n
  induction n with
  | zero =>
    intro st l h
    have h' : (Except.ok [] : Except WalkErr (List Commit)) = .ok l := h
    injection h' with h'; subst h'
    simp [walkLoop]
  | succ n ih =>
    intro st l h
    unfold walkLoop at h ⊢
    simp only [maxReached_none, Bool.false_eq_true, if_false] at h
    by_cases hN : st.num_entries ≥ N
    · rw [if_pos (by simp [maxReached_some, hN])]
      rw [Nat.sub_eq_zero_of_le hN]
      simp
    · rw [if_neg (by simp [maxReached_some]; omega)]
      cases hq : qnextF store qf st.q with
      | error e =>
        rw [hq] at h
        exact Except.noConfusion h
      | ok o =>
        rw [hq] at h
        cases o with
        | none =>
          injection h with h; subst h
          simp
        | some p =>
          obtain ⟨c, q'⟩ := p
          simp only [] at h ⊢
          rw [should_return_max_irrel store tc since until_ follow
            (some N) none st.paths c]
          cases hs : should_return ⟨store, tc, since, until_, follow, none⟩
              st.paths c with
          | error e =>
            rw [hs] at h
            exact Except.noConfusion h
          | ok bp =>
            rw [hs] at h
            obtain ⟨b, paths'⟩ := bp
            cases b with
            | true =>
              simp only [] at h ⊢
              cases hr : walkLoop ⟨store, tc, since, until_, follow, none⟩
                  qf n { q := q', paths := paths',
                         num_entries := st.num_entries + 1 } with
              | error e => rw [hr] at h; exact Except.noConfusion h
              | ok rest =>
                rw [hr] at h
                injection h with h; subst h
                rw [ih _ rest hr]
                simp only []
                have harith : N - st.num_entries = (N - (st.num_entries + 1)) + 1 := by
                  omega
                rw [harith, List.take_succ_cons]
            | false =>
              simp only [] at h ⊢
              exact ih _ l h

/-- **C4.** With `max_entries = N`, the walk emits exactly the first `N`
accepted entries of the unbounded walk (so exactly
`min(N, total acceptable entries)` entries are produced; only accepted
entries count toward the cap, and once the cap is reached nothing more is
produced). -/
theorem C4_max_entries_cap
    (store : Store) (tc : TreeChangesFn) (since until_ : Option Int)
    (follow : Bool) (N qf n : Nat) (st : WState) (l : List Commit)
    (hnum : st.num_entries = 0)
    (hall : walkLoop ⟨store, tc, since, until_, follow, none⟩ qf n st = .ok l) :
    walkLoop ⟨store, tc, since, until_, follow, some N⟩ qf n st =
      .ok (l.take N) ∧
    (l.take N).length = min N l.length := by
  constructor
  · have := walkLoop_capped store tc since until_ follow N qf n st l hall
    rw [hnum] at this
    simpa using this
  · simp [List.length_take]

/-- Initial walker state over `store0` with include seed `cD` and no
filtering: used by the C4 witness. -/
def st4 : WState :=
  { q := { pq := [cD], pqSet := [4], done := [], excluded := [],
           min_time := none, extra := 5 },
    paths := none, num_entries := 0 }

theorem C4_witness :
    walkLoop ⟨store0, fun _ _ => [], none, none, false, some 2⟩ 20 20 st4 =
      .ok ([cD, cC, cB, cA].take 2) ∧
    ([cD, cC, cB, cA].take 2).length = min 2 [cD, cC, cB, cA].length :=
  C4_max_entries_cap store0 (fun _ _ => []) none none false 2 20 20 st4
    [cD, cC, cB, cA] (by rfl) (by rfl)

/-- **C5.** With `reverse=True` and otherwise identical configuration,
the produced sequence is the exact reverse of the `reverse=False`
sequence (the accepted sequence is materialized in full and then
reversed). -/
theorem C5_reverse_is_reversal (w : Walker) (qfuel wfuel : Nat) :
    Walker.run { w with reverse := true } qfuel wfuel =
      Except.map List.reverse (Walker.run { w with reverse := false } qfuel wfuel) := by
  unfold Walker.run
  rw [show ({ w with reverse := true } : Walker).init = w.init from rfl,
      show ({ w with reverse := false } : Walker).init = w.init from rfl,
      show ({ w with reverse := true } : Walker).cfg = w.cfg from rfl,
      show ({ w with reverse := false } : Walker).cfg = w.cfg from rfl]
  cases hi : w.init with
  | error e => simp [Except.map]
  | ok st =>
    simp only []
    cases hl : walkLoop w.cfg qfuel wfuel st with
    | error e => simp [Except.map]
    | ok l => simp [Except.map]

/-- **C10.** An empty `paths` argument is treated exactly like no path
filter at all: `paths and set(paths) or None` yields `None` for an empty
iterable, the walker behaves identically to one constructed with
`paths=None`, and with no path filter every commit within the time
bounds is accepted without consulting its changes. -/
theorem C10_empty_paths_is_no_filter :
    (pathsInit (some []) = none) ∧
    (∀ (w : Walker) (qfuel wfuel : Nat),
       Walker.run { w with paths := some [] } qfuel wfuel =
       Walker.run { w with paths := none } qfuel wfuel) ∧
    (∀ (cfg : WCfg) (c : Commit),
       (∀ T, cfg.since = some T → ¬ c.commit_time < T) →
       (∀ U, cfg.until_ = some U → ¬ c.commit_time > U) →
       should_return cfg none c = .ok (true, none)) := by
  refine ⟨rfl, ?_, ?_⟩
  · intro w qfuel wfuel
    rfl
  · intro cfg c hsince huntil
    unfold should_return
    cases hs : cfg.since with
    | some T =>
      simp only []
      rw [if_neg (hsince T hs)]
      unfold should_return.should_return_until
      cases hu : cfg.until_ with
      | some U =>
        simp only []
        rw [if_neg (huntil U hu)]
        rfl
      | none => rfl
    | none =>
      simp only []
      unfold should_return.should_return_until
      cases hu : cfg.until_ with
      | some U =>
        simp only []
        rw [if_neg (huntil U hu)]
        rfl
      | none => rfl

/-- Configuration with no time bounds, used by the C10 witness. -/
def cfg10 : WCfg :=
  { store := store0, tree_changes := fun _ _ => [], since := none,
    until_ := none, follow := false, max_entries := none }

theorem C10_witness : should_return cfg10 none cA = .ok (true, none) :=
  C10_empty_paths_is_no_filter.2.2 cfg10 cA
    (fun _ h => Option.noConfusion h) (fun _ h => Option.noConfusion h)

/-- **C9.** Every commit identifier absent from the object store raises a
fatal `MissingCommitError` that propagates to the caller with no local
recovery: directly in `_push`; for include/exclude seeds at queue
construction; for a parent identifier encountered while processing a
popped commit; and the error passes unchanged through `next`, the walker
loop and the walker constructor. -/
theorem C9_missing_commit_error :
    (∀ (store : Store) (s : QState) (cid : Sha), store cid = none →
       qpush store s cid = .error (.missingCommit cid)) ∧
    (∀ (store : Store) (inc exc : List Sha) (since : Option Int),
       (∃ p ∈ inc ++ exc, store p = none) →
       ∃ j, store j = none ∧
         qinit store inc exc since = .error (.missingCommit j)) ∧
    (∀ (store : Store) (s : QState) (c : Commit) (pq' : List Commit),
       popMax s.pq = some (c, pq') → c.id ∉ s.done → s.min_time = none →
       (∃ p ∈ c.parents, store p = none) →
       ∃ j, store j = none ∧ qstep store s = .error (.missingCommit j)) ∧
    (∀ (store : Store) (n : Nat) (s : QState) (e : WalkErr),
       qstep store s = .error e → qnextF store (n + 1) s = .error e) ∧
    (∀ (cfg : WCfg) (qf m : Nat) (st : WState) (e : WalkErr),
       maxReached cfg.max_entries st.num_entries = false →
       qnextF cfg.store qf st.q = .error e →
       walkLoop cfg qf (m + 1) st = .error e) ∧
    (∀ (w : Walker) (qfuel wfuel : Nat) (e : WalkErr),
       w.init = .error e → w.run qfuel wfuel = .error e) := by
  refine ⟨?_, ?_, ?_, ?_, ?_, ?_⟩
  · intro store s cid h
    exact qpush_missing h
  · intro store inc exc since h
    unfold qinit
    exact foldlM_qpush_missing _ _ h
  · intro store s c pq' hpop hdone hmin hex
    have key : ∀ (b : Bool) (s4 : QState),
        ∃ j, store j = none ∧
          finishStep store c b s4 = .error (.missingCommit j) := by
      intro b s4
      obtain ⟨j, hj, hfold⟩ := foldlM_qpush_missing c.parents s4 hex
      refine ⟨j, hj, ?_⟩
      unfold finishStep pushParents
      rw [hfold]
    by_cases hexcl : c.id ∈ s.excluded
    · obtain ⟨j, hj, hfin⟩ := key true
        { pq := pq', pqSet := s.pqSet.erase c.id, done := c.id :: s.done,
          excluded := insertAll s.excluded c.parents, min_time := none,
          extra := s.extra }
      refine ⟨j, hj, ?_⟩
      unfold qstep
      rw [hpop]
      simp only []
      rw [if_neg hdone, if_pos hexcl, hmin]
      simp only [boundary]
      exact hfin
    · obtain ⟨j, hj, hfin⟩ := key false
        { pq := pq', pqSet := s.pqSet.erase c.id, done := c.id :: s.done,
          excluded := s.excluded, min_time := none, extra := s.extra }
      refine ⟨j, hj, ?_⟩
      unfold qstep
      rw [hpop]
      simp only []
      rw [if_neg hdone, if_neg hexcl, hmin]
      simp only [boundary]
      exact hfin
  · intro store n s e h
    unfold qnextF
    rw [h]
  · intro cfg qf m st e hmax hq
    unfold walkLoop
    rw [hmax]
    simp only [Bool.false_eq_true, if_false]
    rw [hq]
  · intro w qfuel wfuel e h
    unfold Walker.run
    rw [h]

/-- A queue state whose head commit references the absent parent `9`:
used by the C9 witness. -/
def qs9 : QState :=
  { pq := [⟨7, [9], 100, 50⟩], pqSet := [7], done := [], excluded := [],
    min_time := none, extra := 5 }

theorem C9_witness :
    qpush store0 qs9 9 = .error (.missingCommit 9) :=
  C9_missing_commit_error.1 store0 qs9 9 (by rfl)

theorem mapM_lookup_tree (store : Store) (f : Sha → Commit) :
    ∀ (l : List Sha), (∀ p ∈ l, store p = some (f p)) →
      l.mapM (fun p =>
          match store p with
          | none => Except.error WalkErr.keyError
          | some pc => Except.ok pc.tree) =
        .ok (l.map fun p => (f p).tree) := by
  intro l
  induction l with
  | nil => intro _; rfl
  | cons a t ih =>
    intro h
    rw [List.mapM_cons]
    rw [h a (List.mem_cons_self _ _)]
    have ht := ih fun p hp => h p (List.mem_cons_of_mem _ hp)
    rw [ht]
    rfl

/-- **C6.** `WalkEntry.changes()` dispatch: a parentless commit is diffed
against the empty tree (flat sequence); a single-parent commit against
that parent's tree (flat sequence); a merge commit yields one
change-record sequence per parent, each diffing that parent's tree
against the commit's tree, preserving parent order. -/
theorem C6_changes_shape (store : Store) (tc : TreeChangesFn) (c : Commit) :
    (c.parents = [] →
       WalkEntry.changes store tc c = .ok (.flat (tc none c.tree))) ∧
    (∀ p pc, c.parents = [p] → store p = some pc →
       WalkEntry.changes store tc c = .ok (.flat (tc (some pc.tree) c.tree))) ∧
    (∀ f : Sha → Commit, 2 ≤ c.parents.length →
       (∀ p ∈ c.parents, store p = some (f p)) →
       WalkEntry.changes store tc c =
         .ok (.merge (c.parents.map fun p => tc (some (f p).tree) c.tree))) := by
  refine ⟨?_, ?_, ?_⟩
  · intro h
    unfold WalkEntry.changes
    rw [h]
  · intro p pc h hp
    unfold WalkEntry.changes
    rw [h]
    simp only []
    rw [hp]
  · intro f hlen hf
    cases hp : c.parents with
    | nil => rw [hp] at hlen; simp at hlen
    | cons p1 tail =>
      cases tail with
      | nil => rw [hp] at hlen; simp at hlen
      | cons p2 rest =>
        unfold WalkEntry.changes
        rw [hp]
        simp only []
        rw [mapM_lookup_tree store f (p1 :: p2 :: rest) (by rw [← hp]; exact hf)]
        simp only []
        unfold tree_changes_for_merge
        rw [List.map_map]
        rfl

/-- Diff engine used by the C6 witness. -/
def tcW : TreeChangesFn := fun _ _ => []

/-- Parent-resolving function for the merge commit `cM`. -/
def fW : Sha → Commit := fun p => if p = 3 then cC else cC2

theorem C6_witness :
    WalkEntry.changes store0 tcW cA = .ok (.flat (tcW none cA.tree)) ∧
    WalkEntry.changes store0 tcW cB = .ok (.flat (tcW (some cA.tree) cB.tree)) ∧
    WalkEntry.changes store0 tcW cM =
      .ok (.merge (cM.parents.map fun p => tcW (some (fW p).tree) cM.tree)) :=
  ⟨(C6_changes_shape store0 tcW cA).1 (by rfl),
   (C6_changes_shape store0 tcW cB).2.1 1 cA (by rfl) (by rfl),
   (C6_changes_shape store0 tcW cM).2.2 fW (by decide) (by decide)⟩

theorem get?_append_length (l t : List Char) :
    (l ++ t).get? l.length = t.get? 0 := by
  induction l with
  | nil => rfl
  | cons a l ih => simpa using ih

theorem prefix_slash_iff (fp p : Path) :
    (fp <+: p ∧ p.get? fp.length = some '/') ↔
      ∃ rest, p = fp ++ '/' :: rest := by
  constructor
  · rintro ⟨⟨t, ht⟩, hg⟩
    subst ht
    rw [get?_append_length] at hg
    cases t with
    | nil => exact Option.noConfusion hg
    | cons c0 r =>
      rw [List.get?_cons_zero] at hg
      injection hg with hg
      subst hg
      exact ⟨r, rfl⟩
  · rintro ⟨rest, rfl⟩
    exact ⟨⟨'/' :: rest, rfl⟩, by rw [get?_append_length]; rfl⟩

/-- **C7.** A changed path matches exactly when it equals a followed path
or is a strict descendant of one delimited by the `'/'` separator; in
particular `dir/file.txt` is matched by `dir` but not by `dir2`, and
`dirfile.txt` is not matched by `dir`; and a change record (whenever its
processing returns a result) matches exactly when its new-side path or
its old-side path matches this way against the incoming followed-path
set. -/
theorem C7_path_match_semantics :
    (∀ (paths : List Path) (p : Path),
       path_matches paths (some p) = true ↔
         ∃ fp ∈ paths, p = fp ∨ ∃ rest, p = fp ++ '/' :: rest) ∧
    (path_matches [String.toList "dir"]
        (some (String.toList "dir/file.txt")) = true ∧
     path_matches [String.toList "dir2"]
        (some (String.toList "dir/file.txt")) = false ∧
     path_matches [String.toList "dir"]
        (some (String.toList "dirfile.txt")) = false) ∧
    (∀ (follow : Bool) (paths : List Path) (ch : TreeChange) (b : Bool)
       (paths' : List Path),
       change_matches follow paths ch = .ok (b, paths') →
       b = (path_matches paths ch.new || path_matches paths ch.old)) := by
  refine ⟨?_, ⟨by decide, by decide, by decide⟩, ?_⟩
  · intro paths p
    unfold path_matches
    rw [List.any_eq_true]
    constructor
    · rintro ⟨fp, hfp, hEq⟩
      refine ⟨fp, hfp, ?_⟩
      simp only [Bool.or_eq_true, Bool.and_eq_true, decide_eq_true_eq] at hEq
      rcases hEq with h | ⟨h1, h2⟩
      · exact Or.inl h
      · exact Or.inr ((prefix_slash_iff fp p).mp ⟨h1, h2⟩)
    · rintro ⟨fp, hfp, h⟩
      refine ⟨fp, hfp, ?_⟩
      simp only [Bool.or_eq_true, Bool.and_eq_true, decide_eq_true_eq]
      rcases h with h | h
      · exact Or.inl h
      · exact Or.inr ((prefix_slash_iff fp p).mpr h)
  · intro follow paths ch b paths' h
    obtain ⟨ty, old, new⟩ := ch
    have hnone : path_matches paths none = false := rfl
    cases new with
    | some np =>
      cases old with
      | some op =>
        simp only [change_matches] at h
        by_cases hpm : path_matches paths (some np) = true
        · rw [if_pos hpm] at h
          by_cases hfr : (follow && decide (ty ∈ RENAME_CHANGE_TYPES)) = true
          · rw [if_pos hfr] at h
            by_cases hm : np ∈ (if op ∈ paths then paths else op :: paths)
            · rw [if_pos hm] at h
              simp at h
              obtain ⟨hb, _⟩ := h
              subst hb
              simp [hpm]
            · rw [if_neg hm] at h
              exact Except.noConfusion h
          · rw [if_neg hfr] at h
            simp at h
            obtain ⟨hb, _⟩ := h
            subst hb
            simp [hpm]
        · rw [if_neg hpm] at h
          rw [Bool.not_eq_true] at hpm
          by_cases hpm2 : path_matches paths (some op) = true
          · rw [if_pos hpm2] at h
            simp at h
            obtain ⟨hb, _⟩ := h
            subst hb
            simp [hpm, hpm2]
          · rw [if_neg hpm2] at h
            rw [Bool.not_eq_true] at hpm2
            simp at h
            obtain ⟨hb, _⟩ := h
            subst hb
            simp [hpm, hpm2]
      | none =>
        simp only [change_matches] at h
        by_cases hpm : path_matches paths (some np) = true
        · rw [if_pos hpm] at h
          by_cases hfr : (follow && decide (ty ∈ RENAME_CHANGE_TYPES)) = true
          · rw [if_pos hfr] at h
            by_cases hm : np ∈ paths
            · rw [if_pos hm] at h
              simp at h
              obtain ⟨hb, _⟩ := h
              subst hb
              simp [hpm]
            · rw [if_neg hm] at h
              exact Except.noConfusion h
          · rw [if_neg hfr] at h
            simp at h
            obtain ⟨hb, _⟩ := h
            subst hb
            simp [hpm]
        · rw [if_neg hpm] at h
          rw [Bool.not_eq_true] at hpm
          rw [hnone] at h
          simp at h
          obtain ⟨hb, _⟩ := h
          subst hb
          simp [hpm, hnone]
    | none =>
      cases old with
      | some op =>
        simp only [change_matches] at h
        by_cases hpm2 : path_matches paths (some op) = true
        · rw [if_pos hpm2] at h
          simp at h
          obtain ⟨hb, _⟩ := h
          subst hb
          simp [hnone, hpm2]
        · rw [if_neg hpm2] at h
          rw [Bool.not_eq_true] at hpm2
          simp at h
          obtain ⟨hb, _⟩ := h
          subst hb
          simp [hnone, hpm2]
      | none =>
        simp only [change_matches] at h
        rw [hnone] at h
        simp at h
        obtain ⟨hb, _⟩ := h
        subst hb
        simp [hnone]

/-- Change record used by the C7 witness: a modification of
`dir/file.txt`. -/
def ch7 : TreeChange :=
  ⟨.modify, some (String.toList "dir/file.txt"),
   some (String.toList "dir/file.txt")⟩

theorem C7_witness :
    (true : Bool) =
      (path_matches [String.toList "dir"] ch7.new ||
       path_matches [String.toList "dir"] ch7.old) :=
  C7_path_match_semantics.2.2 false [String.toList "dir"] ch7 true
    [String.toList "dir"] (by rfl)

/-- **C8 counterexample.** The claim fails as stated: for a rename record
whose new-side path matches a followed path only as a strict descendant
(`dir/b.txt` under followed path `dir`), the new path is not itself a
member of the followed-path set, so `self.paths.remove(new_path)` raises
`KeyError` instead of accepting the record and rewriting the set. -/
theorem C8_counterexample :
    change_matches true [String.toList "dir"]
        ⟨.rename, some (String.toList "a.txt"),
         some (String.toList "dir/b.txt")⟩ =
      .error .keyError ∧
    path_matches [String.toList "dir"]
        (some (String.toList "dir/b.txt")) = true :=
  ⟨by rfl, by decide⟩

/-- **C8 (amended).** When follow mode is active and a rename/copy
record's new-side path is itself a member of the followed-path set,
processing the record removes that new path from the set, adds the
record's old path, and accepts the record.  (When the new-side path
matches only as a strict descendant of a followed path, the walk instead
raises an error — see the counterexample.) -/
theorem C8_follow_rename_rewrites_paths
    (paths : List Path) (ty : ChangeType) (np op : Path)
    (hty : ty ∈ RENAME_CHANGE_TYPES)
    (hmem : np ∈ paths) (hne : op ≠ np) (hnd : paths.Nodup) :
    change_matches true paths ⟨ty, some op, some np⟩ =
      .ok (true, (if op ∈ paths then paths else op :: paths).erase np) ∧
    np ∉ (if op ∈ paths then paths else op :: paths).erase np ∧
    op ∈ (if op ∈ paths then paths else op :: paths).erase np := by
  have hpm : path_matches paths (some np) = true := by
    unfold path_matches
    rw [List.any_eq_true]
    exact ⟨np, hmem, by simp⟩
  have hp1 : np ∈ (if op ∈ paths then paths else op :: paths) := by
    split
    · exact hmem
    · exact List.mem_cons_of_mem _ hmem
  have hnd1 : (if op ∈ paths then paths else op :: paths).Nodup := by
    split
    · exact hnd
    · next hop => exact List.nodup_cons.mpr ⟨hop, hnd⟩
  refine ⟨?_, ?_, ?_⟩
  · simp only [change_matches]
    rw [if_pos hpm]
    rw [if_pos (show (true && decide (ty ∈ RENAME_CHANGE_TYPES)) = true by
      simp [hty])]
    rw [if_pos hp1]
  · rw [List.Nodup.mem_erase_iff hnd1]
    simp
  · rw [List.Nodup.mem_erase_iff hnd1]
    refine ⟨hne, ?_⟩
    split
    · next hop => exact hop
    · exact List.mem_cons_self _ _

theorem C8_witness :
    change_matches true [String.toList "new.txt"]
        ⟨.rename, some (String.toList "old.txt"),
         some (String.toList "new.txt")⟩ =
      .ok (true,
        (if String.toList "old.txt" ∈ [String.toList "new.txt"] then
            [String.toList "new.txt"]
          else String.toList "old.txt" :: [String.toList "new.txt"]).erase
          (String.toList "new.txt")) :=
  (C8_follow_rename_rewrites_paths [String.toList "new.txt"] .rename
    (String.toList "new.txt") (String.toList "old.txt")
    (by decide) (by decide) (by decide) (by decide)).1

end DulwichWalk
